import Mathlib

/-!
# Verification of the Infi-RAG chunk-store core

A shallow embedding, in Lean 4, of the retrieval core of the Infi-RAG
repository:

* `src/lib/cosine-similarity.ts` — tokenization, vocabulary construction,
  term-frequency vectors, cosine-similarity search (`tokenize`,
  `createVocabulary`, `createTfVector`, `cosineSimilarity`,
  `precomputeVectors`, `performSearch`);
* the `validateAndProcessData` routine of the application module —
  validation of untrusted decoded JSON into a chunk collection plus a
  `SummaryData` aggregate;
* `src/lib/db.ts` — the keyed persistence layer (`saveVectorData`,
  `getVectorStore`), modelled by explicit state passing over the list of
  stored records.

Modelling conventions:

* JavaScript values decoded from JSON are modelled by the inductive
  `JSValue`; JS numbers are modelled as exact rationals `ℚ` (every claim
  under scrutiny stays far below the range where binary floating point
  and exact arithmetic diverge on the operations the code performs).
* JS strings are processed through their character lists (`String.data`);
  `.length` of a JS string is modelled by the length of that list.
* A JS `Map` and a plain JS object used as a dictionary are both modelled
  as association lists in key-insertion order; enumeration of a plain
  object additionally hoists array-index-like keys to the front in
  ascending numeric order (`jsEntries`), as required by the ECMAScript
  own-property-key ordering.  Assigning the key `"__proto__"` on a plain
  object hits the inherited `Object.prototype.__proto__` accessor and
  creates no own property, so the counter update skips it
  (`upsertCount`); the remaining own-property names of
  `Object.prototype` corrupt the stored count values (see the comment
  on `upsertCount`) and are excluded by hypothesis from the one claim
  that depends on count values.
* `Array.prototype.sort` is stable (ES2019); a stable sort's output is
  uniquely determined by the comparator and the input order, so it is
  modelled by `List.insertionSort`, which is stable.
* The floating-point cosine score `dot / (√magA · √magB)` of two
  nonnegative integer vectors is nonnegative and uniquely determined by
  its square `dot² / (magA · magB)`, an exact rational.  The embedding
  stores that square (`scoreSq`); the comparisons the program performs on
  scores — `> 0`, descending order, equality (in particular with `1.0`)
  — are all equivalent to the corresponding comparisons of the squares,
  because squaring is strictly monotone on nonnegative reals.
-/

/-! ## JavaScript value model -/

/-- A decoded JavaScript value (the possible results of `JSON.parse`,
plus `undefined`, which property access on a missing key yields). -/
inductive JSValue where
  | str (s : String)
  | num (q : ℚ)
  | jsBool (b : Bool)
  | null
  | undefined
  | arr (elems : List JSValue)
  | obj (fields : List (String × JSValue))

/-- The JS `typeof` operator on a decoded value.  Note `typeof null`
is `"object"`, and arrays are also `"object"`. -/
def typeofJS : JSValue → String
  | .str _ => "string"
  | .num _ => "number"
  | .jsBool _ => "boolean"
  | .null => "object"
  | .undefined => "undefined"
  | .arr _ => "object"
  | .obj _ => "object"

/-- Property access `v[k]` on a decoded value: looks a key up in an
object's fields (objects produced by `JSON.parse` have unique keys),
and yields `undefined` on a missing key or a non-object.  The fields
accessed by the code (`id`, `source`, `text`, `startIndex`) are not
built-in properties of arrays or strings, so returning `undefined`
for those receivers is faithful for every access the code performs. -/
def getField : JSValue → String → JSValue
  | .obj fields, k => ((fields.find? (fun p => p.1 == k)).map (·.2)).getD .undefined
  | _, _ => .undefined

/-- The string payload of a `JSValue` known to be a string (the code
reads `chunk.source` / `chunk.text` only after `typeof` checks). -/
def jsAsString : JSValue → String
  | .str s => s
  | _ => ""

/-- Is this value JS `null`? -/
def jsIsNull : JSValue → Bool
  | .null => true
  | _ => false

/-! ## JS string helpers (over character lists, as ECMAScript defines them) -/

/-- A character of the `\w` class of JS regular expressions:
ASCII letters, digits, underscore. -/
def isWordChar (c : Char) : Bool :=
  c.isAlphanum || c == '_'

/-- Splits a character list into the maximal runs of word characters,
discarding everything else — the semantics of `text.match(/\b\w+\b/g)`.
`acc` holds the current run, reversed. -/
def tokenizeAux : List Char → List Char → List (List Char)
  | [], acc => if acc.isEmpty then [] else [acc.reverse]
  | c :: cs, acc =>
    if isWordChar c then
      tokenizeAux cs (c :: acc)
    else if acc.isEmpty then
      tokenizeAux cs []
    else
      acc.reverse :: tokenizeAux cs []

/-- `tokenize` of `cosine-similarity.ts`: lowercase, then the maximal
word-character runs (`text.toLowerCase().match(/\b\w+\b/g) || []`). -/
def tokenize (s : String) : List String :=
  (tokenizeAux (s.data.map Char.toLower) []).map (fun cs => String.mk cs)

/-- JS `String.prototype.trim`: strip leading and trailing whitespace. -/
def jsTrim (s : String) : String :=
  String.mk (((s.data.dropWhile Char.isWhitespace).reverse.dropWhile
    Char.isWhitespace).reverse)

/-! ## Vocabulary and term-frequency vectors (`cosine-similarity.ts`) -/

/-- One step of vocabulary construction: `if (!vocab.has(token))
vocab.set(token, index++)`.  The running index always equals the current
map size, so the appended pair carries `acc.length`. -/
def vocabStep (acc : List (String × ℕ)) (token : String) : List (String × ℕ) :=
  if acc.any (fun p => p.1 == token) then acc else acc ++ [(token, acc.length)]

/-- `createVocabulary` of `cosine-similarity.ts`: a `Map` from token to
integer index, assigned in first-seen order over all documents. -/
def createVocabulary (tokenizedDocs : List (List String)) : List (String × ℕ) :=
  tokenizedDocs.foldl (fun acc tokens => tokens.foldl vocabStep acc) []

/-- `vocab.get(token)` on the insertion-ordered map model. -/
def vocabGet (vocab : List (String × ℕ)) (token : String) : Option ℕ :=
  (vocab.find? (fun p => p.1 == token)).map (·.2)

/-- `createTfVector` of `cosine-similarity.ts`: a dense count vector of
length `vocab.size`; each token with a vocabulary index increments the
entry at that index, unknown tokens are dropped. -/
def createTfVector (tokens : List String) (vocab : List (String × ℕ)) : List ℕ :=
  tokens.foldl
    (fun vec token =>
      match vocabGet vocab token with
      | some i => vec.set i (vec.getD i 0 + 1)
      | none => vec)
    (List.replicate vocab.length 0)

/-- The squared magnitude `Σ vᵢ²` accumulated by `cosineSimilarity`. -/
def magSq (v : List ℕ) : ℕ := (v.map (fun x => x * x)).sum

/-- The dot product `Σ aᵢ·bᵢ` accumulated by `cosineSimilarity`.  The
source loops over the indices of its first argument; at every call site
both vectors have length `vocab.size`, on which `zip` agrees. -/
def dotProd (a b : List ℕ) : ℕ := ((a.zip b).map (fun p => p.1 * p.2)).sum

/-- `cosineSimilarity` of `cosine-similarity.ts`, represented by the
square of its value: the source returns `0` when either magnitude is
`0` (the division is not taken), else `dot / (√magA · √magB)`, whose
square is the exact rational `dot² / (magA · magB)`. -/
def cosineSimilaritySq (a b : List ℕ) : ℚ :=
  if magSq a = 0 ∨ magSq b = 0 then 0
  else mkRat (dotProd a b * dotProd a b) (magSq a * magSq b)

/-! ## Search (`precomputeVectors`, `performSearch`) -/

/-- A chunk of the vector store, after validation. -/
structure VectorChunk where
  id : String
  source : String
  text : String
  startIndex : ℚ
deriving DecidableEq

/-- One entry of the search result: `{ chunk, score }`, with the score
represented by its square (see the header comment). -/
structure SearchResult where
  chunk : VectorChunk
  scoreSq : ℚ
deriving DecidableEq

/-- `precomputeVectors` of `cosine-similarity.ts`. -/
def precomputeVectors (chunks : List VectorChunk) :
    List (List ℕ) × List (String × ℕ) :=
  let tokenizedDocs := chunks.map (fun c => tokenize c.text)
  let vocab := createVocabulary tokenizedDocs
  (tokenizedDocs.map (fun tokens => createTfVector tokens vocab), vocab)

/-- The intermediate `results` array of `performSearch`:
`chunks.map((chunk, index) => ({chunk, score: cos(queryVector, vectors[index])}))`.
The caller always supplies `vectors` of the same length as `chunks`
(they come from `precomputeVectors`), so the `getD` default is inert. -/
def scoreChunks (queryVector : List ℕ) (chunks : List VectorChunk)
    (vectors : List (List ℕ)) : List SearchResult :=
  chunks.enum.map (fun p => ⟨p.2, cosineSimilaritySq queryVector (vectors.getD p.1 [])⟩)

/-- Descending order on result scores: the comparator
`(a, b) => b.score - a.score` orders `a` before `b` iff
`b.score ≤ a.score`, equivalently `b.scoreSq ≤ a.scoreSq`. -/
def scoreLe (a b : SearchResult) : Prop := b.scoreSq ≤ a.scoreSq

instance : DecidableRel scoreLe := fun _ _ => inferInstanceAs (Decidable (_ ≤ _))

instance : IsTotal SearchResult scoreLe := ⟨fun a b => le_total b.scoreSq a.scoreSq⟩

instance : IsTrans SearchResult scoreLe := ⟨fun _ _ _ h1 h2 => le_trans h2 h1⟩

/-- `performSearch` of `cosine-similarity.ts`: short-circuit a blank
query, score every chunk, drop scores `≤ 0`, stable-sort descending by
score, keep the top 3. -/
def performSearch (query : String) (chunks : List VectorChunk)
    (vectors : List (List ℕ)) (vocab : List (String × ℕ)) : List SearchResult :=
  if (jsTrim query).data.isEmpty then []
  else
    let queryTokens := tokenize query
    let queryVector := createTfVector queryTokens vocab
    let results := scoreChunks queryVector chunks vectors
    (List.insertionSort scoreLe (results.filter (fun r => 0 < r.scoreSq))).take 3

/-! ## Validation and summary (`validateAndProcessData` of the app module) -/

/-- The errors `validateAndProcessData` throws.  The source throws
`Error` objects with messages; `wrongFieldType f t` stands for
`Invalid item field 'f': Expected …, got t. Item: …`, which names the
offending field and the `typeof` found there. -/
inductive ValidationError where
  | notAList
  | nonObjectItem
  | wrongFieldType (field : String) (got : String)
deriving DecidableEq

/-- The per-item checks of `validateAndProcessData`, in source order:
non-object (where `typeof null` is `"object"`, hence the extra null
test), then `id`, `source`, `text` must be strings and `startIndex` a
number.  Returns the first failure, if any. -/
def validateItem (item : JSValue) : Option ValidationError :=
  if typeofJS item ≠ "object" || jsIsNull item then some .nonObjectItem
  else if typeofJS (getField item "id") ≠ "string" then
    some (.wrongFieldType "id" (typeofJS (getField item "id")))
  else if typeofJS (getField item "source") ≠ "string" then
    some (.wrongFieldType "source" (typeofJS (getField item "source")))
  else if typeofJS (getField item "text") ≠ "string" then
    some (.wrongFieldType "text" (typeofJS (getField item "text")))
  else if typeofJS (getField item "startIndex") ≠ "number" then
    some (.wrongFieldType "startIndex" (typeofJS (getField item "startIndex")))
  else none

/-- The `for (const item of data)` loop: the first item error aborts
the whole validation. -/
def findItemError : List JSValue → Option ValidationError
  | [] => none
  | item :: rest =>
    match validateItem item with
    | some e => some e
    | none => findItemError rest

/-- An assignment that does create an own property: a fresh key is
appended with count 1, an existing key is bumped in place (association
list in key insertion order). -/
def upsertOwnKey : List (String × ℕ) → String → List (String × ℕ)
  | [], s => [(s, 1)]
  | (k, v) :: rest, s =>
    if k = s then (k, v + 1) :: rest else (k, v) :: upsertOwnKey rest s

/-- One update `sourceCounts[source] = (sourceCounts[source] || 0) + 1`
of the plain-object counter.  `sourceCounts` is a plain object literal,
so assigning the key `"__proto__"` invokes the inherited
`Object.prototype.__proto__` accessor: its setter ignores non-object
values and **no own property is ever created** — a source named
`"__proto__"` is silently dropped from the counts, from `Object.keys`
and from `Object.entries`.  For the other own-property names of
`Object.prototype` (`"toString"`, `"constructor"`, …) the assignment
does create an own key in insertion order, but the first read
`sourceCounts[s] || 0` yields the inherited function, so the program
stores an engine-dependent junk string instead of a number; this model
keeps integer counts there, and every claim whose statement depends on
count values excludes such sources by hypothesis (see
`isObjectProtoKey`), while key-presence facts (`uniqueSources`, the
key order) are exact for every input. -/
def upsertCount (acc : List (String × ℕ)) (s : String) : List (String × ℕ) :=
  if s = "__proto__" then acc else upsertOwnKey acc s

/-- The accumulation loop of `validateAndProcessData`: one pass over the
chunks building the per-source counts and the total text length. -/
def accumulateStats (items : List JSValue) : List (String × ℕ) × ℕ :=
  items.foldl
    (fun acc item =>
      (upsertCount acc.1 (jsAsString (getField item "source")),
       acc.2 + (jsAsString (getField item "text")).data.length))
    ([], 0)

/-- The numeric value of an all-digit key. -/
def digitsToNat (cs : List Char) : ℕ :=
  cs.foldl (fun n c => n * 10 + (c.toNat - '0'.toNat)) 0

/-- An ECMAScript array-index property key: a canonical decimal string
(no leading zero except `"0"` itself) whose value is below `2³² - 1`. -/
def isArrayIndexKey (s : String) : Bool :=
  match s.data with
  | [] => false
  | c :: cs =>
    (c :: cs).all Char.isDigit &&
      (c ≠ '0' || cs.isEmpty) &&
      digitsToNat (c :: cs) < 4294967295

/-- Numeric order on array-index keys, for the enumeration order. -/
def idxKeyLe (p q : String × ℕ) : Prop :=
  digitsToNat p.1.data ≤ digitsToNat q.1.data

instance : DecidableRel idxKeyLe := fun _ _ => inferInstanceAs (Decidable (_ ≤ _))

/-- `Object.entries` on a plain object with string keys: array-index-like
keys first in ascending numeric order, then the remaining keys in
insertion order (ECMAScript own-property-key ordering). -/
def jsEntries (fields : List (String × ℕ)) : List (String × ℕ) :=
  List.insertionSort idxKeyLe (fields.filter (fun p => isArrayIndexKey p.1))
    ++ fields.filter (fun p => !isArrayIndexKey p.1)

/-- One `(source, count)` entry of `topSources`. -/
structure SourceCount where
  source : String
  count : ℕ
deriving DecidableEq

/-- The summary computed by `validateAndProcessData`. -/
structure SummaryData where
  totalChunks : ℕ
  uniqueSources : ℕ
  topSources : List SourceCount
  totalTextLength : ℕ
deriving DecidableEq

/-- Descending order on counts: the comparator `([, a], [, b]) => b - a`
orders `p` before `q` iff `q.count ≤ p.count`. -/
def countGe (p q : String × ℕ) : Prop := q.2 ≤ p.2

instance : DecidableRel countGe := fun _ _ => inferInstanceAs (Decidable (_ ≤ _))

instance : IsTotal (String × ℕ) countGe := ⟨fun p q => le_total q.2 p.2⟩

instance : IsTrans (String × ℕ) countGe := ⟨fun _ _ _ h1 h2 => le_trans h2 h1⟩

/-- The `topSources` computation:
`Object.entries(sourceCounts).sort(([,a],[,b]) => b - a).slice(0, 10)
  .map(([source, count]) => ({source, count}))`. -/
def topSourcesOf (sourceCounts : List (String × ℕ)) : List SourceCount :=
  ((List.insertionSort countGe (jsEntries sourceCounts)).take 10).map
    (fun p => ⟨p.1, p.2⟩)

/-- `validateAndProcessData` of the app module: rejects a non-array
top level, rejects the first ill-typed item, and otherwise returns the
input items unchanged (`data as VectorChunk[]` is a cast, not a copy)
together with the computed `SummaryData`. -/
def validateAndProcessData (data : JSValue) :
    Except ValidationError (List JSValue × SummaryData) :=
  match data with
  | .arr items =>
    match findItemError items with
    | some e => .error e
    | none =>
      let stats := accumulateStats items
      .ok (items,
        { totalChunks := items.length
          uniqueSources := stats.1.length
          topSources := topSourcesOf stats.1
          totalTextLength := stats.2 })
  | _ => .error .notAList

/-! ## Persistence (`db.ts`, explicit state over the stored records) -/

/-- A persisted record of the `vectorData` object store (`keyPath: 'id'`,
the id being the creation timestamp). -/
structure StoredVectorStore where
  id : ℕ
  fileName : String
  content : JSValue

/-- `saveVectorData`: `store.add({id: Date.now(), fileName, content})`.
IndexedDB `add` rejects when the key already exists, otherwise the
record is appended; the current time is passed explicitly. -/
def saveVectorData (db : List StoredVectorStore) (now : ℕ) (fileName : String)
    (content : JSValue) : Except String (List StoredVectorStore × ℕ) :=
  if db.any (fun r => r.id == now) then .error "Failed to save data to IndexedDB."
  else .ok (db ++ [⟨now, fileName, content⟩], now)

/-- `getVectorStore`: `store.get(id)`, yielding the record with that
key, or `none` (`request.result || null`) when absent. -/
def getVectorStore (db : List StoredVectorStore) (id : ℕ) :
    Option StoredVectorStore :=
  db.find? (fun r => r.id == id)

/-! ## Spec-side reference definitions

These two definitions follow the specification's own words (first
occurrence kept, in encounter order) and are used to characterise the
implementation's insertion-ordered accumulators. -/

/-- The distinct elements of a list, first occurrence kept, in order of
first occurrence. -/
def specDistinct : List String → List String
  | [] => []
  | t :: ts => t :: (specDistinct ts).filter (fun u => u ≠ t)

/-- The `(element, total count)` pairs of a list, keyed by the distinct
elements in order of first occurrence. -/
def specCounts : List String → List (String × ℕ)
  | [] => []
  | s :: rest => (s, 1 + rest.count s) :: (specCounts rest).filter (fun p => p.1 ≠ s)

/-- Pairs each element of a list with its position, starting at `n`. -/
def indexFrom (n : ℕ) : List String → List (String × ℕ)
  | [] => []
  | t :: ts => (t, n) :: indexFrom (n + 1) ts

/-- The `source` field of a validated chunk, as a string. -/
def chunkSource (it : JSValue) : String := jsAsString (getField it "source")

/-- The `text` field of a validated chunk, as a string. -/
def chunkText (it : JSValue) : String := jsAsString (getField it "text")

/-- The own-property names of `Object.prototype`: using one of them as
a key of a plain object either creates no own property (`"__proto__"`,
whose inherited accessor swallows the assignment) or makes the counter
read an inherited function first, storing an engine-dependent string
instead of a number.  Statements about count values exclude these
keys. -/
def isObjectProtoKey (s : String) : Bool :=
  s ∈ ["__proto__", "constructor", "hasOwnProperty", "isPrototypeOf",
    "propertyIsEnumerable", "toLocaleString", "toString", "valueOf",
    "__defineGetter__", "__defineSetter__", "__lookupGetter__", "__lookupSetter__"]

/-- The source values that become own keys of the plain-object counter:
all chunk sources except `"__proto__"` (which the inherited setter
swallows), in collection order. -/
def ownSources (items : List JSValue) : List String :=
  (items.map chunkSource).filter (fun s => s ≠ "__proto__")

/-- The shape of a well-formed element, as the spec describes it: an
object (JS `typeof`, excluding `null`) with string `id`, `source`,
`text` and numeric `startIndex`. -/
def wellFormedElem (v : JSValue) : Bool :=
  (typeofJS v == "object") && !jsIsNull v &&
    (typeofJS (getField v "id") == "string") &&
    (typeofJS (getField v "source") == "string") &&
    (typeofJS (getField v "text") == "string") &&
    (typeofJS (getField v "startIndex") == "number")

/-- The `typeof` each validated field is required to have. -/
def expectedFieldType (f : String) : String :=
  if f = "startIndex" then "number" else "string"

/-- A literal validated chunk record, for concrete test inputs. -/
def exItem (idv src txt : String) (si : ℚ) : JSValue :=
  .obj [("id", .str idv), ("source", .str src), ("text", .str txt), ("startIndex", .num si)]

/-- `topSources` as the specification words it: the `(source, count)`
pairs keyed by the distinct sources in first-encountered order
(`specCounts`), stable-sorted descending by count, first 10 kept. -/
def specTopSources (sources : List String) : List SourceCount :=
  ((List.insertionSort countGe (specCounts sources)).take 10).map (fun p => ⟨p.1, p.2⟩)

/-- The summary of the two-chunk collection with sources `b`, `c`. -/
def exSummaryBC : SummaryData :=
  { totalChunks := 2, uniqueSources := 2, topSources := [⟨"b", 1⟩, ⟨"c", 1⟩],
    totalTextLength := 4 }

/-- The summary of the one-chunk collection with source `s`. -/
def exSummaryS : SummaryData :=
  { totalChunks := 1, uniqueSources := 1, topSources := [⟨"s", 1⟩], totalTextLength := 1 }

/-- The two-chunk example collection of the specification. -/
def exChunkA : VectorChunk := ⟨"a", "doc1", "red fox", 0⟩

/-- The second chunk of the example collection. -/
def exChunkB : VectorChunk := ⟨"b", "doc1", "blue sky", 10⟩

def tokenizedDocsOf (chunks : List VectorChunk) : List (List String) :=
  chunks.map (fun c => tokenize c.text)

def flatTokensOf (chunks : List VectorChunk) : List String :=
  (tokenizedDocsOf chunks).flatten

/-! ## Generic lemmas about stable sorting (`List.insertionSort`) -/

/-- Inserting an element below which no `p`-element can sit commutes
with `filter p`. -/
theorem filter_orderedInsert_of_imp {α : Type} (r : α → α → Prop) [DecidableRel r]
    (p : α → Bool) (H : ∀ a b, p a = true → ¬ r a b → p b = false) (a : α) :
    ∀ l : List α, (l.orderedInsert r a).filter p =
      if p a then a :: l.filter p else l.filter p := by
  intro l
  induction l with
  | nil =>
    by_cases hpa : p a = true
    · simp [List.orderedInsert, List.filter_cons, hpa]
    · simp [List.orderedInsert, List.filter_cons, hpa]
  | cons b l ih =>
    by_cases hr : r a b
    · by_cases hpa : p a = true
      · simp [List.orderedInsert, if_pos hr, List.filter_cons, hpa]
      · simp [List.orderedInsert, if_pos hr, List.filter_cons, hpa]
    · by_cases hpa : p a = true
      · have hpb : p b = false := H a b hpa hr
        simp [List.orderedInsert, if_neg hr, List.filter_cons, hpb, ih, hpa]
      · have hpa' : p a = false := by simpa using hpa
        by_cases hpb : p b = true
        · simp [List.orderedInsert, if_neg hr, List.filter_cons, hpb, ih, hpa']
        · simp [List.orderedInsert, if_neg hr, List.filter_cons,
            (by simpa using hpb : p b = false), ih, hpa']

/-- Stability of `insertionSort`, in filter form: the subsequence of
elements inside one comparator-equivalence class (characterised by a
predicate `p` closed under the comparator in the sense of `H`) is
untouched by the sort. -/
theorem filter_insertionSort_of_imp {α : Type} (r : α → α → Prop) [DecidableRel r]
    (p : α → Bool) (H : ∀ a b, p a = true → ¬ r a b → p b = false) :
    ∀ l : List α, (List.insertionSort r l).filter p = l.filter p := by
  intro l
  induction l with
  | nil => rfl
  | cons a l ih =>
    rw [List.insertionSort, filter_orderedInsert_of_imp r p H, List.filter_cons, ih]

/-- A filtered prefix is a prefix of the filtered list. -/
theorem filter_take_eq_take_filter {α : Type} (p : α → Bool) :
    ∀ (l : List α) (n : ℕ), ∃ m, (l.take n).filter p = (l.filter p).take m := by
  intro l
  induction l with
  | nil => intro n; exact ⟨0, by simp⟩
  | cons a l ih =>
    intro n
    match n with
    | 0 => exact ⟨0, by simp⟩
    | n + 1 =>
      obtain ⟨m, hm⟩ := ih n
      by_cases hpa : p a = true
      · exact ⟨m + 1, by simp [List.filter_cons, hpa, hm]⟩
      · exact ⟨m, by simp [List.filter_cons, hpa, hm]⟩


/-! ## Lemmas about the source-count accumulator -/

/-- Filters commute. -/
theorem filter_comm_helper {α : Type} (p q : α → Bool) (l : List α) :
    (l.filter p).filter q = (l.filter q).filter p := by
  simp [List.filter_filter, Bool.and_comm]

/-- `specCounts` commutes with removing one key. -/
theorem specCounts_filter_ne (x : String) :
    ∀ M : List String,
      (specCounts M).filter (fun p => p.1 ≠ x) =
        specCounts (M.filter (fun u => u ≠ x)) := by
  intro M
  induction M with
  | nil => rfl
  | cons s rest ih =>
    by_cases hs : s = x
    · subst hs
      have h1 : (specCounts (s :: rest)).filter (fun p => p.1 ≠ s) =
          (specCounts rest).filter (fun p => p.1 ≠ s) := by
        simp only [specCounts, List.filter_cons]
        simp [List.filter_filter]
      have h2 : (s :: rest).filter (fun u => u ≠ s) = rest.filter (fun u => u ≠ s) := by
        simp [List.filter_cons]
      rw [h1, ih, h2]
    · have h2 : (s :: rest).filter (fun u => u ≠ x) =
          s :: rest.filter (fun u => u ≠ x) := by
        simp [List.filter_cons, hs]
      rw [h2]
      have h3 : (specCounts (s :: rest)).filter (fun p => p.1 ≠ x) =
          (s, 1 + rest.count s) ::
            ((specCounts rest).filter (fun p => p.1 ≠ s)).filter (fun p => p.1 ≠ x) := by
        simp only [specCounts, List.filter_cons]
        simp [hs]
      rw [h3]
      have h4 : (rest.filter (fun u => u ≠ x)).count s = rest.count s :=
        List.count_filter (by simp [hs])
      simp only [specCounts, h4]
      rw [filter_comm_helper, ih]

/-- Upserting a fresh key appends it with count 1. -/
theorem upsertOwnKey_of_not_mem :
    ∀ (acc : List (String × ℕ)) (s : String), s ∉ acc.map Prod.fst →
      upsertOwnKey acc s = acc ++ [(s, 1)] := by
  intro acc
  induction acc with
  | nil => intro s _; rfl
  | cons p rest ih =>
    intro s hs
    obtain ⟨k, v⟩ := p
    simp only [List.map_cons, List.mem_cons] at hs
    push_neg at hs
    simp only [upsertOwnKey, List.cons_append]
    rw [ih s hs.2, if_neg (fun h : k = s => hs.1 h.symm)]

/-- Upserting a present key (keys distinct) bumps exactly that entry. -/
theorem upsertOwnKey_of_mem :
    ∀ (acc : List (String × ℕ)) (s : String), (acc.map Prod.fst).Nodup →
      s ∈ acc.map Prod.fst →
      upsertOwnKey acc s = acc.map (fun p => if p.1 = s then (p.1, p.2 + 1) else p) := by
  intro acc
  induction acc with
  | nil => intro s _ hs; simp at hs
  | cons p rest ih =>
    intro s hnd hs
    obtain ⟨k, v⟩ := p
    simp only [List.map_cons, List.nodup_cons] at hnd
    by_cases hk : k = s
    · subst hk
      simp only [upsertOwnKey, List.map_cons, if_pos rfl]
      have : rest.map (fun p => if p.1 = k then (p.1, p.2 + 1) else p) = rest := by
        apply List.map_congr_left ?_ |>.trans (List.map_id rest)
        intro q hq
        have : q.1 ≠ k := by
          intro h
          exact hnd.1 (h ▸ List.mem_map_of_mem Prod.fst hq)
        simp [this]
      rw [this]
      simp
    · simp only [List.map_cons, List.mem_cons] at hs
      have hs' : s ∈ rest.map Prod.fst := hs.resolve_left (fun h => hk h.symm)
      simp only [upsertOwnKey, if_neg hk, List.map_cons, if_neg hk, ih s hnd.2 hs']

/-- The counting fold, characterised: starting from an accumulator with
distinct keys, it bumps every existing entry by that key's number of
occurrences and appends the `specCounts` of the unseen elements. -/
theorem foldl_upsertOwnKey_spec :
    ∀ (l : List String) (acc : List (String × ℕ)), (acc.map Prod.fst).Nodup →
      List.foldl upsertOwnKey acc l =
        acc.map (fun p => (p.1, p.2 + l.count p.1)) ++
          specCounts (l.filter (fun s => s ∉ acc.map Prod.fst)) := by
  intro l
  induction l with
  | nil =>
    intro acc _
    simp only [List.count_nil, List.filter_nil, List.foldl_nil]
    have : acc.map (fun p => (p.1, p.2 + 0)) = acc := by
      apply List.map_congr_left ?_ |>.trans (List.map_id acc)
      intro q _
      simp
    simp [specCounts, this]
  | cons x l ih =>
    intro acc hnd
    simp only [List.foldl_cons]
    by_cases hx : x ∈ acc.map Prod.fst
    · rw [upsertOwnKey_of_mem acc x hnd hx]
      have hnd2 : ((acc.map (fun p => if p.1 = x then (p.1, p.2 + 1) else p)).map Prod.fst).Nodup := by
        have : (acc.map (fun p => if p.1 = x then (p.1, p.2 + 1) else p)).map Prod.fst
            = acc.map Prod.fst := by
          rw [List.map_map]
          apply List.map_congr_left
          intro q _
          by_cases hq : q.1 = x <;> simp [hq]
        rw [this]; exact hnd
      rw [ih _ hnd2]
      have hkeys : (acc.map (fun p => if p.1 = x then (p.1, p.2 + 1) else p)).map Prod.fst
          = acc.map Prod.fst := by
        rw [List.map_map]
        apply List.map_congr_left
        intro q _
        by_cases hq : q.1 = x <;> simp [hq]
      rw [hkeys]
      have hmap : (acc.map (fun p => if p.1 = x then (p.1, p.2 + 1) else p)).map
            (fun p => (p.1, p.2 + l.count p.1))
          = acc.map (fun p => (p.1, p.2 + (x :: l).count p.1)) := by
        rw [List.map_map]
        apply List.map_congr_left
        intro q _
        simp only [Function.comp_apply]
        by_cases hq : q.1 = x
        · rw [if_pos hq, hq, List.count_cons_self]
          simp only [Prod.mk.injEq, true_and]
          omega
        · rw [if_neg hq, List.count_cons_of_ne hq]
      have hfilt : (x :: l).filter (fun s => s ∉ acc.map Prod.fst)
          = l.filter (fun s => s ∉ acc.map Prod.fst) := by
        simp [List.filter_cons, hx]
      rw [hmap, hfilt]
    · rw [upsertOwnKey_of_not_mem acc x hx]
      have hnd2 : ((acc ++ [(x, 1)]).map Prod.fst).Nodup := by
        simp only [List.map_append, List.map_cons, List.map_nil, List.nodup_append]
        exact ⟨hnd, List.nodup_singleton x, by
          intro a ha hb
          simp only [List.mem_singleton] at hb
          exact hx (hb ▸ ha)⟩
      rw [ih _ hnd2]
      have hkeys : (acc ++ [(x, 1)]).map Prod.fst = acc.map Prod.fst ++ [x] := by
        simp
      have hmapeq : acc.map (fun p => (p.1, p.2 + l.count p.1))
          = acc.map (fun p => (p.1, p.2 + (x :: l).count p.1)) := by
        apply List.map_congr_left
        intro q hq
        have hq1 : q.1 ≠ x := by
          intro h
          exact hx (h ▸ List.mem_map_of_mem Prod.fst hq)
        rw [List.count_cons_of_ne hq1]
      have hfilt1 : (x :: l).filter (fun s => s ∉ acc.map Prod.fst)
          = x :: l.filter (fun s => s ∉ acc.map Prod.fst) := by
        simp [List.filter_cons, hx]
      have hfilt2 : l.filter (fun s => s ∉ acc.map Prod.fst ++ [x])
          = (l.filter (fun s => s ∉ acc.map Prod.fst)).filter (fun s => s ≠ x) := by
        rw [List.filter_filter]
        apply List.filter_congr
        intro a _
        by_cases h1 : a ∈ acc.map Prod.fst <;> by_cases h2 : a = x <;>
          simp [h1, h2]
      have hcount : (l.filter (fun s => s ∉ acc.map Prod.fst)).count x = l.count x :=
        List.count_filter (by simp [hx])
      rw [hkeys, hfilt1, hfilt2]
      rw [show specCounts (x :: l.filter (fun s => s ∉ acc.map Prod.fst))
          = (x, 1 + (l.filter (fun s => s ∉ acc.map Prod.fst)).count x) ::
            (specCounts (l.filter (fun s => s ∉ acc.map Prod.fst))).filter
              (fun p => p.1 ≠ x) from rfl]
      rw [specCounts_filter_ne, hcount, ← hmapeq]
      simp [List.append_assoc]

/-- The keys of `specCounts` are the distinct elements in
first-encountered order. -/
theorem map_fst_specCounts :
    ∀ M : List String, (specCounts M).map Prod.fst = specDistinct M := by
  intro M
  induction M with
  | nil => rfl
  | cons s rest ih =>
    simp only [specCounts, specDistinct, List.map_cons]
    rw [← ih]
    congr 1
    induction (specCounts rest) with
    | nil => rfl
    | cons p ps ihp =>
      simp only [List.filter_cons, List.map_cons]
      have ihp2 : List.map Prod.fst (ps.filter (fun p => !decide (p.1 = s))) =
          (ps.map Prod.fst).filter (fun u => !decide (u = s)) := by
        simpa [ne_eq, decide_not] using ihp
      by_cases hp : p.1 = s
      · simp [hp, ihp2]
      · simp [hp, ihp2]

/-- `specDistinct` has the same members as its input. -/
theorem mem_specDistinct :
    ∀ (M : List String) (a : String), a ∈ specDistinct M ↔ a ∈ M := by
  intro M
  induction M with
  | nil => intro a; simp [specDistinct]
  | cons s rest ih =>
    intro a
    simp only [specDistinct, List.mem_cons, List.mem_filter]
    constructor
    · rintro (rfl | ⟨h1, _⟩)
      · exact .inl rfl
      · exact .inr ((ih a).mp h1)
    · rintro (rfl | h)
      · exact .inl rfl
      · by_cases ha : a = s
        · exact .inl ha
        · exact .inr ⟨(ih a).mpr h, by simp [ha]⟩

/-- `specDistinct` has no duplicates. -/
theorem nodup_specDistinct : ∀ M : List String, (specDistinct M).Nodup := by
  intro M
  induction M with
  | nil => exact List.nodup_nil
  | cons s rest ih =>
    simp only [specDistinct, List.nodup_cons]
    refine ⟨fun h => ?_, ih.filter _⟩
    have := (List.mem_filter.mp h).2
    simp at this

/-- The length of `specDistinct` is the number of distinct elements. -/
theorem length_specDistinct_eq_card :
    ∀ M : List String, (specDistinct M).length = M.toFinset.card := by
  intro M
  have h1 : (specDistinct M).toFinset = M.toFinset := by
    ext a
    simp [List.mem_toFinset, mem_specDistinct]
  rw [← h1, List.toFinset_card_of_nodup (nodup_specDistinct M)]

/-- `accumulateStats` splits into the counting fold over the sources and
the summed text lengths. -/
theorem accumulateStats_eq :
    ∀ (items : List JSValue) (c : List (String × ℕ)) (n : ℕ),
      items.foldl
        (fun acc item =>
          (upsertCount acc.1 (jsAsString (getField item "source")),
           acc.2 + (jsAsString (getField item "text")).data.length)) (c, n) =
      (List.foldl upsertCount c (items.map chunkSource),
       n + (items.map (fun it => (chunkText it).data.length)).sum) := by
  intro items
  induction items with
  | nil => intro c n; simp
  | cons it items ih =>
    intro c n
    simp only [List.foldl_cons, List.map_cons, List.sum_cons, ih, chunkSource, chunkText]
    rw [Prod.mk.injEq]
    exact ⟨rfl, by omega⟩

/-- Folding the plain-object assignment equals folding the own-key
upsert over the sources with `"__proto__"` removed. -/
theorem foldl_upsertCount_eq_own :
    ∀ (l : List String) (acc : List (String × ℕ)),
      List.foldl upsertCount acc l =
        List.foldl upsertOwnKey acc (l.filter (fun s => s ≠ "__proto__")) := by
  intro l
  induction l with
  | nil => intro acc; rfl
  | cons x l ih =>
    intro acc
    by_cases hx : x = "__proto__"
    · have hstep : upsertCount acc x = acc := by
        unfold upsertCount
        rw [if_pos hx]
      have hfilt : (x :: l).filter (fun s => s ≠ "__proto__") =
          l.filter (fun s => s ≠ "__proto__") := by
        simp [List.filter_cons, hx]
      rw [List.foldl_cons, hstep, hfilt, ih]
    · have hstep : upsertCount acc x = upsertOwnKey acc x := by
        unfold upsertCount
        rw [if_neg hx]
      have hfilt : (x :: l).filter (fun s => s ≠ "__proto__") =
          x :: l.filter (fun s => s ≠ "__proto__") := by
        simp [List.filter_cons, hx]
      rw [List.foldl_cons, hstep, hfilt, List.foldl_cons, ih]

/-- The own-key fold from the empty accumulator is `specCounts`. -/
theorem foldl_upsertOwnKey_nil_eq (l : List String) :
    List.foldl upsertOwnKey [] l = specCounts l := by
  have := foldl_upsertOwnKey_spec l [] (by simp)
  simp only [List.map_nil, List.nil_append] at this
  rw [this]
  have h2 : ∀ s : String, s ∈ l →
      (decide (s ∉ ([] : List String))) = (fun _ : String => true) s := by
    intro s _; simp
  rw [List.filter_congr h2, List.filter_true]

/-- The source counter accumulated by `validateAndProcessData` is
exactly the spec-side `specCounts` of the chunk sources that became own
keys (every source except `"__proto__"`); in particular its keys are
those distinct sources in first-encountered order. -/
theorem accumulateStats_fst (items : List JSValue) :
    (accumulateStats items).1 = specCounts (ownSources items) := by
  rw [accumulateStats, accumulateStats_eq]
  show List.foldl upsertCount [] (items.map chunkSource) = _
  rw [foldl_upsertCount_eq_own, foldl_upsertOwnKey_nil_eq]
  rfl

/-- The total text length accumulated by `validateAndProcessData`. -/
theorem accumulateStats_snd (items : List JSValue) :
    (accumulateStats items).2 = (items.map (fun it => (chunkText it).data.length)).sum := by
  rw [accumulateStats, accumulateStats_eq]
  simp

/-! ## Lemmas about object-key enumeration and validation -/

/-- When no key is array-index-like, `Object.entries` enumerates in pure
insertion order. -/
theorem jsEntries_of_no_index_keys (fields : List (String × ℕ))
    (h : ∀ p ∈ fields, isArrayIndexKey p.1 = false) : jsEntries fields = fields := by
  unfold jsEntries
  have h1 : fields.filter (fun p => isArrayIndexKey p.1) = [] := by
    rw [List.filter_eq_nil_iff]
    intro p hp
    simp [h p hp]
  have h2 : fields.filter (fun p => !isArrayIndexKey p.1) = fields := by
    rw [List.filter_eq_self]
    intro p hp
    simp [h p hp]
  rw [h1, h2]
  rfl

/-- `validateItem` succeeds exactly on well-formed elements. -/
theorem validateItem_eq_none_iff (v : JSValue) :
    validateItem v = none ↔ wellFormedElem v = true := by
  unfold validateItem wellFormedElem
  by_cases h0 : typeofJS v ≠ "object" || jsIsNull v
  · simp only [h0, if_true]
    constructor
    · intro h; cases h
    · intro h
      rcases Bool.or_eq_true_iff.mp h0 with h1 | h1
      · simp only [Bool.and_eq_true, beq_iff_eq] at h
        exact absurd h.1.1.1.1.1 (by simpa using h1)
      · simp only [Bool.and_eq_true] at h
        revert h
        simp [h1]
  · simp only [h0, if_false]
    have hobj : typeofJS v = "object" ∧ jsIsNull v = false := by simpa using h0
    by_cases h1 : typeofJS (getField v "id") ≠ "string"
    · simp [h1, hobj.1, hobj.2]
    · push_neg at h1
      by_cases h2 : typeofJS (getField v "source") ≠ "string"
      · simp [h1, h2, hobj.1, hobj.2]
      · push_neg at h2
        by_cases h3 : typeofJS (getField v "text") ≠ "string"
        · simp [h1, h2, h3, hobj.1, hobj.2]
        · push_neg at h3
          by_cases h4 : typeofJS (getField v "startIndex") ≠ "number"
          · simp [h1, h2, h3, h4, hobj.1, hobj.2]
          · push_neg at h4
            simp [h1, h2, h3, h4, hobj.1, hobj.2]

/-- A `wrongFieldType` result of `validateItem` reports a field whose
actual `typeof` differs from the required one. -/
theorem validateItem_wrongFieldType (v : JSValue) (f g : String)
    (h : validateItem v = some (.wrongFieldType f g)) :
    typeofJS (getField v f) = g ∧ g ≠ expectedFieldType f := by
  unfold validateItem at h
  by_cases h0 : typeofJS v ≠ "object" || jsIsNull v
  · rw [if_pos h0] at h; cases h
  · rw [if_neg h0] at h
    by_cases h1 : typeofJS (getField v "id") ≠ "string"
    · rw [if_pos h1] at h
      obtain ⟨rfl, rfl⟩ : f = "id" ∧ g = typeofJS (getField v "id") := by
        cases h; exact ⟨rfl, rfl⟩
      exact ⟨rfl, by simpa [expectedFieldType] using h1⟩
    · rw [if_neg h1] at h
      by_cases h2 : typeofJS (getField v "source") ≠ "string"
      · rw [if_pos h2] at h
        obtain ⟨rfl, rfl⟩ : f = "source" ∧ g = typeofJS (getField v "source") := by
          cases h; exact ⟨rfl, rfl⟩
        exact ⟨rfl, by simpa [expectedFieldType] using h2⟩
      · rw [if_neg h2] at h
        by_cases h3 : typeofJS (getField v "text") ≠ "string"
        · rw [if_pos h3] at h
          obtain ⟨rfl, rfl⟩ : f = "text" ∧ g = typeofJS (getField v "text") := by
            cases h; exact ⟨rfl, rfl⟩
          exact ⟨rfl, by simpa [expectedFieldType] using h3⟩
        · rw [if_neg h3] at h
          by_cases h4 : typeofJS (getField v "startIndex") ≠ "number"
          · rw [if_pos h4] at h
            obtain ⟨rfl, rfl⟩ : f = "startIndex" ∧ g = typeofJS (getField v "startIndex") := by
              cases h; exact ⟨rfl, rfl⟩
            exact ⟨rfl, by simpa [expectedFieldType] using h4⟩
          · rw [if_neg h4] at h; cases h

/-- The item loop succeeds exactly when every element passes. -/
theorem findItemError_eq_none_iff :
    ∀ items : List JSValue,
      findItemError items = none ↔ ∀ x ∈ items, validateItem x = none := by
  intro items
  induction items with
  | nil => simp [findItemError]
  | cons it items ih =>
    simp only [findItemError]
    cases hv : validateItem it with
    | some e =>
      simp only []
      constructor
      · intro h; cases h
      · intro h
        exact absurd (h it (List.mem_cons_self it items)) (by simp [hv])
    | none =>
      simp only [ih]
      constructor
      · intro h x hx
        rcases List.mem_cons.mp hx with rfl | hx
        · exact hv
        · exact h x hx
      · intro h x hx
        exact h x (List.mem_cons_of_mem it hx)

/-- An error reported by the item loop comes from some element. -/
theorem findItemError_some_mem :
    ∀ (items : List JSValue) (e : ValidationError),
      findItemError items = some e → ∃ x ∈ items, validateItem x = some e := by
  intro items
  induction items with
  | nil => intro e h; cases h
  | cons it items ih =>
    intro e h
    simp only [findItemError] at h
    cases hv : validateItem it with
    | some e2 =>
      rw [hv] at h
      cases h
      exact ⟨it, List.mem_cons_self it items, hv⟩
    | none =>
      rw [hv] at h
      obtain ⟨x, hx, hvx⟩ := ih e h
      exact ⟨x, List.mem_cons_of_mem it hx, hvx⟩

/-- The explicit success value of `validateAndProcessData`: the items
unchanged, and the summary built from the `specCounts` of the sources. -/
theorem validate_ok_eq (items : List JSValue) (h : findItemError items = none) :
    validateAndProcessData (.arr items) =
      .ok (items,
        { totalChunks := items.length
          uniqueSources := (specCounts (ownSources items)).length
          topSources := topSourcesOf (specCounts (ownSources items))
          totalTextLength := (items.map (fun it => (chunkText it).data.length)).sum }) := by
  show (match findItemError items with
    | some e => Except.error e
    | none =>
      let stats := accumulateStats items
      (Except.ok (items,
        { totalChunks := items.length, uniqueSources := stats.1.length,
          topSources := topSourcesOf stats.1, totalTextLength := stats.2 }) :
        Except ValidationError (List JSValue × SummaryData))) = _
  rw [h]
  show (Except.ok (items,
      { totalChunks := items.length, uniqueSources := (accumulateStats items).1.length,
        topSources := topSourcesOf (accumulateStats items).1,
        totalTextLength := (accumulateStats items).2 }) :
    Except ValidationError (List JSValue × SummaryData)) = _
  rw [accumulateStats_fst, accumulateStats_snd]

/-- Inversion of a successful validation. -/
theorem validate_ok_inv (items : List JSValue) (pd : List JSValue) (sd : SummaryData)
    (h : validateAndProcessData (.arr items) = .ok (pd, sd)) :
    findItemError items = none ∧ pd = items ∧
      sd = { totalChunks := items.length
             uniqueSources := (specCounts (ownSources items)).length
             topSources := topSourcesOf (specCounts (ownSources items))
             totalTextLength := (items.map (fun it => (chunkText it).data.length)).sum } := by
  cases he : findItemError items with
  | some e =>
    have h2 : validateAndProcessData (.arr items) = .error e := by
      show (match findItemError items with
        | some e => Except.error e
        | none =>
          let stats := accumulateStats items
          (Except.ok (items,
            { totalChunks := items.length, uniqueSources := stats.1.length,
              topSources := topSourcesOf stats.1, totalTextLength := stats.2 }) :
            Except ValidationError (List JSValue × SummaryData))) = _
      rw [he]
    rw [h2] at h
    cases h
  | none =>
    rw [validate_ok_eq items he] at h
    obtain ⟨h1, h2⟩ := Prod.mk.injEq .. ▸ (Except.ok.injEq .. ▸ h)
    exact ⟨rfl, h1.symm, h2.symm⟩

/-- Success of the whole validation is success of the item loop. -/
theorem validate_isOk_iff (xs : List JSValue) :
    (validateAndProcessData (.arr xs)).isOk = true ↔ findItemError xs = none := by
  cases he : findItemError xs with
  | some e =>
    have h2 : validateAndProcessData (.arr xs) = .error e := by
      show (match findItemError xs with
        | some e => Except.error e
        | none =>
          let stats := accumulateStats xs
          (Except.ok (xs,
            { totalChunks := xs.length, uniqueSources := stats.1.length,
              topSources := topSourcesOf stats.1, totalTextLength := stats.2 }) :
            Except ValidationError (List JSValue × SummaryData))) = _
      rw [he]
    rw [h2]
    simp [Except.isOk, Except.toBool]
  | none =>
    rw [validate_ok_eq xs he]
    simp [Except.isOk, Except.toBool]

/-- A validation error is the first item error. -/
theorem validate_error_inv (xs : List JSValue) (e : ValidationError)
    (h : validateAndProcessData (.arr xs) = .error e) : findItemError xs = some e := by
  cases he : findItemError xs with
  | some e2 =>
    have h2 : validateAndProcessData (.arr xs) = .error e2 := by
      show (match findItemError xs with
        | some e => Except.error e
        | none =>
          let stats := accumulateStats xs
          (Except.ok (xs,
            { totalChunks := xs.length, uniqueSources := stats.1.length,
              topSources := topSourcesOf stats.1, totalTextLength := stats.2 }) :
            Except ValidationError (List JSValue × SummaryData))) = _
      rw [he]
    rw [h2] at h
    cases h
    rfl
  | none =>
    rw [validate_ok_eq xs he] at h
    cases h

/-- C2 (counterexample): on the valid collection with sources
`["b", "1"]` (in that encounter order, each with count 1), the computed
`topSources` lists `"1"` before `"b"`: `Object.entries` hoists the
array-index-like key `"1"` in front of the insertion order, and the
stable descending sort keeps it there, so equal-count sources do NOT
appear in first-encountered order as the claim states. -/
theorem topSources_tie_break_counterexample :
    (validateAndProcessData
        (.arr [exItem "x" "b" "t1" 0, exItem "y" "1" "t2" 0])).toOption.map
        (fun r => r.2.topSources) = some [⟨"1", 1⟩, ⟨"b", 1⟩]
    ∧ [exItem "x" "b" "t1" 0, exItem "y" "1" "t2" 0].map chunkSource = ["b", "1"]
    ∧ ([⟨"1", 1⟩, ⟨"b", 1⟩] : List SourceCount) ≠ [⟨"b", 1⟩, ⟨"1", 1⟩] := by
  refine ⟨by decide, by decide, by decide⟩

/-- C2 (amended): for every valid input none of whose source values is
an array-index-like string or an own-property name of
`Object.prototype` (both classes break the plain-object counter:
array-index keys are hoisted by `Object.entries`, `"__proto__"` is
swallowed by the inherited setter, and the other inherited names make
the program store engine-dependent junk counts), `topSources` equals
the spec-side ranking `specTopSources`: the 10 highest-count
`(source, count)` pairs of the first-encounter-ordered distinct sources
under a stable descending sort — so equal counts appear in
first-encountered order — and the listed counts are descending. -/
theorem topSources_spec_of_no_index_sources :
    ∀ (items pd : List JSValue) (sd : SummaryData),
      validateAndProcessData (.arr items) = .ok (pd, sd) →
      (∀ it ∈ items, isArrayIndexKey (chunkSource it) = false) →
      (∀ it ∈ items, isObjectProtoKey (chunkSource it) = false) →
      sd.topSources = specTopSources (items.map chunkSource) ∧
        sd.topSources.Pairwise (fun p q => q.count ≤ p.count) := by
  intro items pd sd h hidx hproto
  obtain ⟨-, -, rfl⟩ := validate_ok_inv items pd sd h
  have hown : ownSources items = items.map chunkSource := by
    show (items.map chunkSource).filter (fun s => s ≠ "__proto__") = _
    rw [List.filter_eq_self]
    intro a ha
    obtain ⟨it, hit, he⟩ := List.mem_map.mp ha
    have hp := he ▸ hproto it hit
    simp only [decide_eq_true_eq]
    intro hcontra
    rw [hcontra] at hp
    exact absurd hp (by decide)
  have hkeys : ∀ p ∈ specCounts (items.map chunkSource), isArrayIndexKey p.1 = false := by
    intro p hp
    have h1 : p.1 ∈ (specCounts (items.map chunkSource)).map Prod.fst :=
      List.mem_map_of_mem _ hp
    rw [map_fst_specCounts] at h1
    have h2 := (mem_specDistinct _ _).mp h1
    obtain ⟨it, hit, he⟩ := List.mem_map.mp h2
    exact he ▸ hidx it hit
  constructor
  · show topSourcesOf (specCounts (ownSources items)) = _
    rw [hown]
    unfold topSourcesOf specTopSources
    rw [jsEntries_of_no_index_keys _ hkeys]
  · show (topSourcesOf (specCounts (ownSources items))).Pairwise _
    unfold topSourcesOf
    rw [List.pairwise_map]
    exact ((List.sorted_insertionSort countGe _).sublist
      (List.take_sublist 10 _))

/-- C7 (counterexample): on the valid two-chunk collection with the
distinct sources `"s1"` and `"__proto__"`, the computed `uniqueSources`
is `1`, not `2`: assigning the key `"__proto__"` on the plain-object
counter invokes the inherited `Object.prototype.__proto__` setter and
creates no own key, so `Object.keys` undercounts the distinct
sources. -/
theorem uniqueSources_proto_counterexample :
    (validateAndProcessData
        (.arr [exItem "a" "s1" "t" 0, exItem "b" "__proto__" "u" 0])).toOption.map
        (fun r => r.2.uniqueSources) = some 1
    ∧ ([exItem "a" "s1" "t" 0, exItem "b" "__proto__" "u" 0].map chunkSource).toFinset.card
        = 2 := by
  refine ⟨by decide, by decide⟩

/-- C7 (amended): on every accepted input, `totalChunks` is the
collection length and `totalTextLength` the summed text lengths, and
`uniqueSources` equals the number of distinct source values **other
than `"__proto__"`** — that source never becomes an own key of the
plain-object counter, so it is not counted. -/
theorem summary_consistent_own_sources :
    ∀ (items pd : List JSValue) (sd : SummaryData),
      validateAndProcessData (.arr items) = .ok (pd, sd) →
      sd.totalChunks = pd.length ∧
        sd.uniqueSources =
          ((pd.map chunkSource).filter (fun s => s ≠ "__proto__")).toFinset.card ∧
        sd.totalTextLength = (pd.map (fun it => (chunkText it).data.length)).sum := by
  intro items pd sd h
  obtain ⟨-, rfl, rfl⟩ := validate_ok_inv items pd sd h
  refine ⟨rfl, ?_, rfl⟩
  show (specCounts (ownSources pd)).length = _
  rw [← List.length_map (specCounts (ownSources pd)) Prod.fst,
    map_fst_specCounts, length_specDistinct_eq_card]
  rfl

/-- C3 (counterexample): validation accepts a chunk whose `startIndex`
is the negative number `-1` — the code checks only `typeof === 'number'`,
so "non-negative integer" is not enforced. -/
theorem validate_accepts_negative_startIndex :
    (validateAndProcessData (.arr [exItem "a" "s" "t" (-1)])).isOk = true
    ∧ getField (exItem "a" "s" "t" (-1)) "startIndex" = .num (-1)
    ∧ ((-1 : ℚ) < 0) := by
  refine ⟨by decide, rfl, by decide⟩

/-- C3 (amended): every chunk of an accepted collection has string
`id`, `source` and `text` fields and a numeric (not necessarily
non-negative or integral) `startIndex`. -/
theorem validated_chunks_well_typed :
    ∀ (items pd : List JSValue) (sd : SummaryData),
      validateAndProcessData (.arr items) = .ok (pd, sd) →
      ∀ it ∈ pd,
        typeofJS (getField it "id") = "string" ∧
          typeofJS (getField it "source") = "string" ∧
          typeofJS (getField it "text") = "string" ∧
          typeofJS (getField it "startIndex") = "number" := by
  intro items pd sd h it hit
  obtain ⟨hfe, hpd, -⟩ := validate_ok_inv items pd sd h
  rw [hpd] at hit
  have h1 := (findItemError_eq_none_iff items).mp hfe it hit
  have h2 := (validateItem_eq_none_iff it).mp h1
  unfold wellFormedElem at h2
  simp only [Bool.and_eq_true, beq_iff_eq] at h2
  exact ⟨h2.1.1.1.2, h2.1.1.2, h2.1.2, h2.2⟩

/-- C4: `validateAndProcessData` errors on every non-array top level;
on an array it succeeds exactly when every element is an object with
string `id`, `source`, `text` and numeric `startIndex`; a
`wrongFieldType` error names a field whose actual `typeof` differs from
the required one; and on success the returned collection is the input
element list itself (order-preserving, never partial). -/
theorem validate_error_contract (v : JSValue) :
    ((∀ xs, v ≠ .arr xs) → validateAndProcessData v = .error .notAList)
    ∧ (∀ xs, v = .arr xs →
        (((validateAndProcessData v).isOk = true) ↔ ∀ x ∈ xs, wellFormedElem x = true))
    ∧ (∀ xs pd sd, v = .arr xs → validateAndProcessData v = .ok (pd, sd) → pd = xs)
    ∧ (∀ xs f g, v = .arr xs → validateAndProcessData v = .error (.wrongFieldType f g) →
        ∃ x ∈ xs, typeofJS (getField x f) = g ∧ g ≠ expectedFieldType f) := by
  refine ⟨?_, ?_, ?_, ?_⟩
  · intro h
    cases v with
    | arr xs => exact absurd rfl (h xs)
    | str s => rfl
    | num q => rfl
    | jsBool b => rfl
    | null => rfl
    | undefined => rfl
    | obj fields => rfl
  · rintro xs rfl
    rw [validate_isOk_iff, findItemError_eq_none_iff]
    constructor
    · intro h x hx
      exact (validateItem_eq_none_iff x).mp (h x hx)
    · intro h x hx
      exact (validateItem_eq_none_iff x).mpr (h x hx)
  · rintro xs pd sd rfl h
    exact (validate_ok_inv xs pd sd h).2.1
  · rintro xs f g rfl h
    obtain ⟨x, hx, hvx⟩ := findItemError_some_mem xs _ (validate_error_inv xs _ h)
    exact ⟨x, hx, validateItem_wrongFieldType x f g hvx⟩

/-- C4 (witness): the contract applied at concrete inputs — a number at
top level is rejected as not a list, and a one-element array whose
element is a proper record is accepted by the success criterion. -/
theorem validate_error_contract_witness :
    validateAndProcessData (.num 5) = .error .notAList
    ∧ ((validateAndProcessData (.arr [exItem "a" "s" "t" 0])).isOk = true
        ↔ ∀ x ∈ [exItem "a" "s" "t" 0], wellFormedElem x = true) :=
  ⟨(validate_error_contract (.num 5)).1 (fun xs h => JSValue.noConfusion h),
   (validate_error_contract (.arr [exItem "a" "s" "t" 0])).2.1 _ rfl⟩

/-- C2 (witness): the amended tie-break statement applied to the
concrete two-source collection `["b", "c"]`. -/
theorem topSources_spec_of_no_index_sources_witness :
    exSummaryBC.topSources =
      specTopSources ([exItem "x" "b" "t1" 0, exItem "y" "c" "t2" 0].map chunkSource)
    ∧ exSummaryBC.topSources.Pairwise (fun p q => q.count ≤ p.count) :=
  topSources_spec_of_no_index_sources
    [exItem "x" "b" "t1" 0, exItem "y" "c" "t2" 0]
    [exItem "x" "b" "t1" 0, exItem "y" "c" "t2" 0]
    exSummaryBC rfl (by decide) (by decide)

/-- C3 (witness): the amended field-typing statement applied to a
concrete accepted one-chunk collection. -/
theorem validated_chunks_well_typed_witness :
    typeofJS (getField (exItem "a" "s" "t" 0) "id") = "string" ∧
      typeofJS (getField (exItem "a" "s" "t" 0) "source") = "string" ∧
      typeofJS (getField (exItem "a" "s" "t" 0) "text") = "string" ∧
      typeofJS (getField (exItem "a" "s" "t" 0) "startIndex") = "number" :=
  validated_chunks_well_typed [exItem "a" "s" "t" 0] [exItem "a" "s" "t" 0]
    exSummaryS rfl (exItem "a" "s" "t" 0) (List.mem_singleton.mpr rfl)

/-- C7 (witness): the amended summary consistency at a concrete
accepted input. -/
theorem summary_consistent_own_sources_witness :
    exSummaryS.totalChunks = [exItem "a" "s" "t" 0].length ∧
      exSummaryS.uniqueSources =
        (([exItem "a" "s" "t" 0].map chunkSource).filter
          (fun s => s ≠ "__proto__")).toFinset.card ∧
      exSummaryS.totalTextLength =
        ([exItem "a" "s" "t" 0].map (fun it => (chunkText it).data.length)).sum :=
  summary_consistent_own_sources [exItem "a" "s" "t" 0] [exItem "a" "s" "t" 0] exSummaryS rfl

/-- C1 (counterexample): on the example collection the search for
`"fox"` does return chunk `"a"` alone — but its score is not `1.0`.
The embedding carries squared scores; the computed squared score is
`1/2` (vocabulary `red fox blue sky`, query vector `(0,1,0,0)`, chunk
vector `(1,1,0,0)`, so `cos = 1/(1·√2) = √2/2 ≈ 0.707`), and since a
cosine of nonnegative vectors is nonnegative, `score² = 1/2 ≠ 1 = 1²`
refutes `score = 1.0`. -/
theorem example_search_score_not_one :
    performSearch "fox" [exChunkA, exChunkB]
        (precomputeVectors [exChunkA, exChunkB]).1
        (precomputeVectors [exChunkA, exChunkB]).2 =
      [⟨exChunkA, mkRat 1 2⟩]
    ∧ (mkRat 1 2 : ℚ) ≠ 1 := by
  refine ⟨by decide, by decide⟩

/-- C1 (amended): on the example collection, the query `"fox"` returns
exactly one result, chunk `"a"`, with score `√2/2 ≈ 0.707` (squared
score `1/2`) — not `1.0` — and chunk `"b"` does not appear (its score
`0` is filtered out). -/
theorem example_search_top_result :
    performSearch "fox" [exChunkA, exChunkB]
        (precomputeVectors [exChunkA, exChunkB]).1
        (precomputeVectors [exChunkA, exChunkB]).2 =
      [⟨exChunkA, mkRat 1 2⟩]
    ∧ (0 : ℚ) < mkRat 1 2
    ∧ ∀ r ∈ performSearch "fox" [exChunkA, exChunkB]
        (precomputeVectors [exChunkA, exChunkB]).1
        (precomputeVectors [exChunkA, exChunkB]).2, r.chunk ≠ exChunkB := by
  refine ⟨by decide, by decide, by decide⟩

/-- C9: a successful `saveVectorData` followed by `getVectorStore` of
the returned id yields a record with the given file name and content
structurally (deep-)equal to the original. -/
theorem save_get_roundtrip (db : List StoredVectorStore) (now : ℕ) (fileName : String)
    (content : JSValue) (db2 : List StoredVectorStore) (id : ℕ)
    (h : saveVectorData db now fileName content = .ok (db2, id)) :
    getVectorStore db2 id = some ⟨id, fileName, content⟩ := by
  unfold saveVectorData at h
  by_cases hk : db.any (fun r => r.id == now) = true
  · rw [if_pos hk] at h; cases h
  · rw [if_neg hk] at h
    obtain ⟨h1, h2⟩ := Prod.mk.injEq .. ▸ (Except.ok.injEq .. ▸ h)
    subst h2
    unfold getVectorStore
    rw [← h1, List.find?_append]
    have hnone : db.find? (fun r => r.id == now) = none := by
      rw [List.find?_eq_none]
      intro r hr hbeq
      exact hk (List.any_eq_true.mpr ⟨r, hr, hbeq⟩)
    rw [hnone]
    simp [List.find?]

/-- C9 (witness): the round trip on an initially empty store. -/
theorem save_get_roundtrip_witness :
    getVectorStore [⟨7, "vectorstore.json", .null⟩] 7 =
      some ⟨7, "vectorstore.json", .null⟩ :=
  save_get_roundtrip [] 7 "vectorstore.json" .null [⟨7, "vectorstore.json", .null⟩] 7 rfl

/-- A query none of whose tokens is in the vocabulary produces the
all-zero term vector. -/
theorem createTfVector_all_unknown (tokens : List String) (vocab : List (String × ℕ))
    (h : ∀ t ∈ tokens, vocabGet vocab t = none) :
    createTfVector tokens vocab = List.replicate vocab.length 0 := by
  unfold createTfVector
  suffices hgen : ∀ (v : List ℕ),
      tokens.foldl
        (fun vec token =>
          match vocabGet vocab token with
          | some i => vec.set i (vec.getD i 0 + 1)
          | none => vec) v = v from hgen _
  induction tokens with
  | nil => intro v; rfl
  | cons t ts ih =>
    intro v
    have ht := h t (List.mem_cons_self t ts)
    simp only [List.foldl_cons, ht]
    exact ih (fun u hu => h u (List.mem_cons_of_mem t hu)) v

/-- The all-zero vector has zero squared magnitude. -/
theorem magSq_replicate_zero (n : ℕ) : magSq (List.replicate n 0) = 0 := by
  simp [magSq, List.map_replicate]

/-- C8: a blank (empty or all-whitespace) query short-circuits to the
empty result; the cosine score is `0` whenever either squared magnitude
is `0` (so the quotient is never formed); and a query all of whose
tokens fall outside the vocabulary returns no results. -/
theorem blank_or_unknown_query_empty (query : String) (chunks : List VectorChunk)
    (vectors : List (List ℕ)) (vocab : List (String × ℕ)) :
    ((∀ c ∈ query.data, c.isWhitespace = true) →
      performSearch query chunks vectors vocab = [])
    ∧ (∀ a b : List ℕ, magSq a = 0 ∨ magSq b = 0 → cosineSimilaritySq a b = 0)
    ∧ ((∀ t ∈ tokenize query, vocabGet vocab t = none) →
      performSearch query chunks vectors vocab = []) := by
  refine ⟨?_, ?_, ?_⟩
  · intro h
    have hdata : (jsTrim query).data = [] := by
      show (((query.data.dropWhile Char.isWhitespace).reverse.dropWhile
        Char.isWhitespace).reverse) = []
      have h1 : query.data.dropWhile Char.isWhitespace = [] :=
        List.dropWhile_eq_nil_iff.mpr (fun x hx => by simp [h x hx])
      rw [h1]
      rfl
    simp [performSearch, hdata]
  · intro a b hab
    unfold cosineSimilaritySq
    rw [if_pos hab]
  · intro h
    by_cases hblank : (jsTrim query).data.isEmpty = true
    · simp [performSearch, hblank]
    · have hqv : createTfVector (tokenize query) vocab = List.replicate vocab.length 0 :=
        createTfVector_all_unknown _ _ h
      have hscore : ∀ r ∈ scoreChunks (createTfVector (tokenize query) vocab) chunks vectors,
          r.scoreSq = 0 := by
        intro r hr
        obtain ⟨p, _, rfl⟩ := List.mem_map.mp hr
        show cosineSimilaritySq (createTfVector (tokenize query) vocab) _ = 0
        unfold cosineSimilaritySq
        rw [if_pos (Or.inl (hqv ▸ magSq_replicate_zero vocab.length))]
      have hfilter : (scoreChunks (createTfVector (tokenize query) vocab) chunks
            vectors).filter (fun r => 0 < r.scoreSq) = [] := by
        rw [List.filter_eq_nil_iff]
        intro r hr
        simp [hscore r hr]
      unfold performSearch
      rw [if_neg hblank]
      show (List.insertionSort scoreLe ((scoreChunks _ chunks vectors).filter
        (fun r => 0 < r.scoreSq))).take 3 = []
      rw [hfilter]
      rfl

/-- C8 (witness): the contract applied at a concrete whitespace query
and at a concrete vocabulary-missing query over the example data. -/
theorem blank_or_unknown_query_empty_witness :
    performSearch "  " [exChunkA, exChunkB]
        (precomputeVectors [exChunkA, exChunkB]).1
        (precomputeVectors [exChunkA, exChunkB]).2 = []
    ∧ performSearch "zzz" [exChunkA, exChunkB]
        (precomputeVectors [exChunkA, exChunkB]).1
        (precomputeVectors [exChunkA, exChunkB]).2 = [] :=
  ⟨(blank_or_unknown_query_empty "  " [exChunkA, exChunkB]
      (precomputeVectors [exChunkA, exChunkB]).1
      (precomputeVectors [exChunkA, exChunkB]).2).1 (by decide),
   (blank_or_unknown_query_empty "zzz" [exChunkA, exChunkB]
      (precomputeVectors [exChunkA, exChunkB]).1
      (precomputeVectors [exChunkA, exChunkB]).2).2.2 (by decide)⟩

/-- C5: with a prebuilt index, `performSearch` returns at most 3
results, all with strictly positive score, in non-increasing score
order; and for every score value the results carrying it form a prefix
of the equally-scored entries of the unsorted score list — i.e. the
descending sort is stable and equal scores keep original collection
order. -/
theorem search_top3_sorted (chunks : List VectorChunk) (vectors : List (List ℕ))
    (vocab : List (String × ℕ)) (query : String)
    (hpre : precomputeVectors chunks = (vectors, vocab)) :
    (performSearch query chunks vectors vocab).length ≤ 3
    ∧ (∀ r ∈ performSearch query chunks vectors vocab, 0 < r.scoreSq)
    ∧ (performSearch query chunks vectors vocab).Pairwise
        (fun a b => b.scoreSq ≤ a.scoreSq)
    ∧ (∀ s : ℚ, ∃ n,
        (performSearch query chunks vectors vocab).filter (fun r => r.scoreSq = s) =
          ((scoreChunks (createTfVector (tokenize query) vocab) chunks vectors).filter
            (fun r => r.scoreSq = s)).take n) := by
  by_cases hblank : (jsTrim query).data.isEmpty = true
  · have hps : performSearch query chunks vectors vocab = [] := by
      unfold performSearch
      rw [if_pos hblank]
    rw [hps]
    exact ⟨by simp, by simp, List.Pairwise.nil, fun s => ⟨0, by simp⟩⟩
  · have hps : performSearch query chunks vectors vocab =
        (List.insertionSort scoreLe
          ((scoreChunks (createTfVector (tokenize query) vocab) chunks vectors).filter
            (fun r => 0 < r.scoreSq))).take 3 := by
      unfold performSearch
      rw [if_neg hblank]
    have hmem : ∀ r ∈ performSearch query chunks vectors vocab, 0 < r.scoreSq := by
      intro r hr
      rw [hps] at hr
      have h1 := (List.mem_insertionSort scoreLe).mp (List.mem_of_mem_take hr)
      have h2 := List.of_mem_filter h1
      exact of_decide_eq_true h2
    refine ⟨?_, hmem, ?_, ?_⟩
    · rw [hps]
      exact List.length_take_le 3 _
    · rw [hps]
      refine List.Pairwise.imp (fun h => h) ?_
      exact (List.sorted_insertionSort scoreLe _).sublist (List.take_sublist 3 _)
    · intro s
      by_cases hs : 0 < s
      · rw [hps]
        obtain ⟨m, hm⟩ := filter_take_eq_take_filter (fun r => decide (r.scoreSq = s))
          (List.insertionSort scoreLe
            ((scoreChunks (createTfVector (tokenize query) vocab) chunks vectors).filter
              (fun r => 0 < r.scoreSq))) 3
        refine ⟨m, hm.trans ?_⟩
        have hsort := filter_insertionSort_of_imp scoreLe (fun r => decide (r.scoreSq = s))
          (fun a b ha hab => by
            have h1 : a.scoreSq = s := of_decide_eq_true ha
            have h2 : a.scoreSq < b.scoreSq := lt_of_not_le hab
            have h3 : b.scoreSq ≠ s := by rw [← h1]; exact ne_of_gt h2
            simp [h3])
          ((scoreChunks (createTfVector (tokenize query) vocab) chunks vectors).filter
            (fun r => 0 < r.scoreSq))
        rw [hsort, List.filter_filter]
        congr 1
        apply List.filter_congr
        intro r _
        by_cases hr : r.scoreSq = s
        · simp [hr, hs]
        · simp [hr]
      · refine ⟨0, ?_⟩
        rw [List.take_zero, List.filter_eq_nil_iff]
        intro r hr
        have h1 := hmem r hr
        intro hrs
        exact hs (of_decide_eq_true hrs ▸ h1)

/-- C5 (witness): the search contract applied to the prebuilt index of
the example collection and the query `"fox"`. -/
theorem search_top3_sorted_witness :
    (performSearch "fox" [exChunkA, exChunkB]
        (precomputeVectors [exChunkA, exChunkB]).1
        (precomputeVectors [exChunkA, exChunkB]).2).length ≤ 3
    ∧ (∀ r ∈ performSearch "fox" [exChunkA, exChunkB]
        (precomputeVectors [exChunkA, exChunkB]).1
        (precomputeVectors [exChunkA, exChunkB]).2, 0 < r.scoreSq)
    ∧ (performSearch "fox" [exChunkA, exChunkB]
        (precomputeVectors [exChunkA, exChunkB]).1
        (precomputeVectors [exChunkA, exChunkB]).2).Pairwise
        (fun a b => b.scoreSq ≤ a.scoreSq)
    ∧ (∀ s : ℚ, ∃ n,
        (performSearch "fox" [exChunkA, exChunkB]
          (precomputeVectors [exChunkA, exChunkB]).1
          (precomputeVectors [exChunkA, exChunkB]).2).filter (fun r => r.scoreSq = s) =
          ((scoreChunks
            (createTfVector (tokenize "fox") (precomputeVectors [exChunkA, exChunkB]).2)
            [exChunkA, exChunkB]
            (precomputeVectors [exChunkA, exChunkB]).1).filter
              (fun r => r.scoreSq = s)).take n) :=
  search_top3_sorted [exChunkA, exChunkB]
    (precomputeVectors [exChunkA, exChunkB]).1
    (precomputeVectors [exChunkA, exChunkB]).2 "fox" rfl

theorem length_indexFrom (n : ℕ) : ∀ d : List String, (indexFrom n d).length = d.length := by
  intro d
  induction d generalizing n with
  | nil => rfl
  | cons t ts ih => simp [indexFrom, ih]

theorem indexFrom_append (n : ℕ) :
    ∀ d1 d2 : List String,
      indexFrom n (d1 ++ d2) = indexFrom n d1 ++ indexFrom (n + d1.length) d2 := by
  intro d1
  induction d1 generalizing n with
  | nil => intro d2; simp [indexFrom]
  | cons t ts ih =>
    intro d2
    simp only [List.cons_append, indexFrom, ih (n + 1), List.length_cons]
    have h2 : n + 1 + ts.length = n + (ts.length + 1) := by omega
    rw [show ts.append d2 = ts ++ d2 from rfl, ih (n + 1), h2]

theorem any_indexFrom_eq_mem (t : String) :
    ∀ (d : List String) (n : ℕ),
      (indexFrom n d).any (fun p => p.1 == t) = decide (t ∈ d) := by
  intro d
  induction d with
  | nil => intro n; simp [indexFrom]
  | cons t0 ts ih =>
    intro n
    simp only [indexFrom, List.any_cons, ih, List.mem_cons]
    by_cases h : t0 = t
    · simp [h]
    · have h2 : ¬ t = t0 := fun hh => h hh.symm
      simp [h, h2]

theorem specDistinct_filter (p : String → Bool) :
    ∀ M : List String, specDistinct (M.filter p) = (specDistinct M).filter p := by
  intro M
  induction M with
  | nil => rfl
  | cons s rest ih =>
    by_cases hp : p s = true
    · have h1 : (s :: rest).filter p = s :: rest.filter p := by simp [List.filter_cons, hp]
      rw [h1]
      show s :: (specDistinct (rest.filter p)).filter (fun u => u ≠ s) = _
      rw [ih]
      have h2 : (specDistinct (s :: rest)).filter p =
          s :: ((specDistinct rest).filter (fun u => u ≠ s)).filter p := by
        simp [specDistinct, List.filter_cons, hp]
      rw [h2]
      congr 1
      exact filter_comm_helper _ _ _
    · have hp' : p s = false := by simpa using hp
      have h1 : (s :: rest).filter p = rest.filter p := by simp [List.filter_cons, hp']
      rw [h1, ih]
      show (specDistinct rest).filter p =
        (s :: (specDistinct rest).filter (fun u => u ≠ s)).filter p
      rw [List.filter_cons]
      simp only [hp', cond_false]
      rw [List.filter_filter]
      apply List.filter_congr
      intro u _
      by_cases hu : p u = true
      · have : u ≠ s := fun h => by rw [h] at hu; exact absurd hu (by simp [hp'])
        simp [hu, this]
      · simp [(by simpa using hu : p u = false)]

theorem foldl_vocabStep_spec :
    ∀ (l : List String) (d0 : List String),
      List.foldl vocabStep (indexFrom 0 d0) l =
        indexFrom 0 (d0 ++ specDistinct (l.filter (fun t => t ∉ d0))) := by
  intro l
  induction l with
  | nil => intro d0; simp [specDistinct]
  | cons x l ih =>
    intro d0
    simp only [List.foldl_cons]
    by_cases hx : x ∈ d0
    · have hstep : vocabStep (indexFrom 0 d0) x = indexFrom 0 d0 := by
        unfold vocabStep
        rw [any_indexFrom_eq_mem, if_pos (by simpa using hx)]
      rw [hstep, ih]
      have : (x :: l).filter (fun t => t ∉ d0) = l.filter (fun t => t ∉ d0) := by
        simp [List.filter_cons, hx]
      rw [this]
    · have hstep : vocabStep (indexFrom 0 d0) x = indexFrom 0 (d0 ++ [x]) := by
        unfold vocabStep
        rw [any_indexFrom_eq_mem, if_neg (by simpa using hx), indexFrom_append,
          length_indexFrom]
        simp [indexFrom]
      rw [hstep, ih (d0 ++ [x])]
      have hfilt : (x :: l).filter (fun t => t ∉ d0) =
          x :: l.filter (fun t => t ∉ d0) := by
        simp [List.filter_cons, hx]
      rw [hfilt]
      have hfilt2 : l.filter (fun t => t ∉ d0 ++ [x]) =
          (l.filter (fun t => t ∉ d0)).filter (fun t => t ≠ x) := by
        rw [List.filter_filter]
        apply List.filter_congr
        intro a _
        by_cases h1 : a ∈ d0 <;> by_cases h2 : a = x <;> simp [h1, h2]
      rw [hfilt2, specDistinct_filter]
      show indexFrom 0 ((d0 ++ [x]) ++ (specDistinct (l.filter (fun t => t ∉ d0))).filter
        (fun u => u ≠ x)) = _
      have : specDistinct (x :: l.filter (fun t => t ∉ d0)) =
          x :: (specDistinct (l.filter (fun t => t ∉ d0))).filter (fun u => u ≠ x) := rfl
      rw [this, List.append_assoc]
      rfl

theorem createVocabulary_spec (tokenizedDocs : List (List String)) :
    createVocabulary tokenizedDocs = indexFrom 0 (specDistinct tokenizedDocs.flatten) := by
  unfold createVocabulary
  rw [← List.foldl_flatten]
  have h0 : (indexFrom 0 ([] : List String)) = ([] : List (String × ℕ)) := rfl
  rw [← h0, foldl_vocabStep_spec]
  have : tokenizedDocs.flatten.filter (fun t => t ∉ ([] : List String)) =
      tokenizedDocs.flatten := by
    rw [List.filter_eq_self]
    intro a _
    simp
  rw [this]
  rfl

theorem vocabGet_indexFrom (t : String) :
    ∀ (d : List String) (n : ℕ),
      vocabGet (indexFrom n d) t =
        if t ∈ d then some (n + d.indexOf t) else none := by
  intro d
  induction d with
  | nil => intro n; simp [indexFrom, vocabGet]
  | cons t0 ts ih =>
    intro n
    by_cases h : t0 = t
    · subst h
      simp [vocabGet, indexFrom, List.find?, List.indexOf_cons]
    · have hfind : vocabGet (indexFrom n (t0 :: ts)) t = vocabGet (indexFrom (n + 1) ts) t := by
        simp only [indexFrom, vocabGet, List.find?]
        rw [show ((t0, n).1 == t) = false by simpa using h]
      rw [hfind, ih (n + 1)]
      by_cases hm : t ∈ ts
      · rw [if_pos hm, if_pos (List.mem_cons_of_mem t0 hm), List.indexOf_cons]
        rw [show (t0 == t) = false by simpa using h]
        show some (n + 1 + ts.indexOf t) = some (n + (ts.indexOf t + 1))
        congr 1
        omega
      · rw [if_neg hm, if_neg (fun hc => by
          rcases List.mem_cons.mp hc with hh | hh
          · exact h hh.symm
          · exact hm hh)]

theorem indexOf_filter_lt_iff (p : String → Bool) :
    ∀ (L : List String) (t1 t2 : String),
      t1 ∈ L.filter p → t2 ∈ L.filter p →
      ((L.filter p).indexOf t1 < (L.filter p).indexOf t2 ↔ L.indexOf t1 < L.indexOf t2) := by
  intro L
  induction L with
  | nil => intro t1 t2 h1; simp at h1
  | cons a L ih =>
    intro t1 t2 h1 h2
    by_cases hpa : p a = true
    · have hf : (a :: L).filter p = a :: L.filter p := by simp [List.filter_cons, hpa]
      rw [hf] at h1 h2 ⊢
      by_cases e1 : a = t1
      · subst e1
        by_cases e2 : a = t2
        · subst e2; simp
        · have h2' : t2 ∈ L.filter p := by
            rcases List.mem_cons.mp h2 with hh | hh
            · exact absurd hh.symm e2
            · exact hh
          have hL2 : t2 ∈ L := (List.mem_filter.mp h2').1
          simp only [List.indexOf_cons]
          rw [show (a == a) = true by simp, show (a == t2) = false by simpa using e2]
          simp
      · by_cases e2 : a = t2
        · subst e2
          have h1' : t1 ∈ L.filter p := by
            rcases List.mem_cons.mp h1 with hh | hh
            · exact absurd hh.symm e1
            · exact hh
          simp only [List.indexOf_cons]
          rw [show (a == t1) = false by simpa using e1, show (a == a) = true by simp]
          simp
        · have h1' : t1 ∈ L.filter p := by
            rcases List.mem_cons.mp h1 with hh | hh
            · exact absurd hh.symm e1
            · exact hh
          have h2' : t2 ∈ L.filter p := by
            rcases List.mem_cons.mp h2 with hh | hh
            · exact absurd hh.symm e2
            · exact hh
          simp only [List.indexOf_cons]
          rw [show (a == t1) = false by simpa using e1,
            show (a == t2) = false by simpa using e2]
          simp only [cond_false]
          rw [Nat.succ_lt_succ_iff, Nat.succ_lt_succ_iff]
          exact ih t1 t2 h1' h2'
    · have hpa' : p a = false := by simpa using hpa
      have hf : (a :: L).filter p = L.filter p := by simp [List.filter_cons, hpa']
      rw [hf] at h1 h2 ⊢
      have e1 : a ≠ t1 := by
        intro h; rw [← h] at h1
        exact absurd ((List.mem_filter.mp h1).2) (by simp [hpa'])
      have e2 : a ≠ t2 := by
        intro h; rw [← h] at h2
        exact absurd ((List.mem_filter.mp h2).2) (by simp [hpa'])
      simp only [List.indexOf_cons]
      rw [show (a == t1) = false by simpa using e1,
        show (a == t2) = false by simpa using e2]
      simp only [cond_false]
      rw [Nat.succ_lt_succ_iff]
      exact ih t1 t2 h1 h2

theorem indexOf_specDistinct_lt_iff :
    ∀ (M : List String) (t1 t2 : String), t1 ∈ M → t2 ∈ M →
      ((specDistinct M).indexOf t1 < (specDistinct M).indexOf t2 ↔
        M.indexOf t1 < M.indexOf t2) := by
  intro M
  induction M with
  | nil => intro t1 t2 h1; simp at h1
  | cons s M ih =>
    intro t1 t2 h1 h2
    have hsd : specDistinct (s :: M) = s :: (specDistinct M).filter (fun u => u ≠ s) := rfl
    rw [hsd]
    by_cases e1 : s = t1
    · subst e1
      by_cases e2 : s = t2
      · subst e2
        simp
      · simp only [List.indexOf_cons]
        rw [show (s == s) = true by simp, show (s == t2) = false by simpa using e2]
        simp
    · by_cases e2 : s = t2
      · subst e2
        simp only [List.indexOf_cons]
        rw [show (s == t1) = false by simpa using e1, show (s == s) = true by simp]
        simp
      · have h1' : t1 ∈ M := by
          rcases List.mem_cons.mp h1 with hh | hh
          · exact absurd hh.symm e1
          · exact hh
        have h2' : t2 ∈ M := by
          rcases List.mem_cons.mp h2 with hh | hh
          · exact absurd hh.symm e2
          · exact hh
        have he1 : ¬ t1 = s := fun h => e1 h.symm
        have he2 : ¬ t2 = s := fun h => e2 h.symm
        have hm1 : t1 ∈ (specDistinct M).filter (fun u => u ≠ s) :=
          List.mem_filter.mpr ⟨(mem_specDistinct M t1).mpr h1', by simp [he1]⟩
        have hm2 : t2 ∈ (specDistinct M).filter (fun u => u ≠ s) :=
          List.mem_filter.mpr ⟨(mem_specDistinct M t2).mpr h2', by simp [he2]⟩
        simp only [List.indexOf_cons]
        rw [show (s == t1) = false by simpa using e1,
          show (s == t2) = false by simpa using e2]
        simp only [cond_false]
        rw [Nat.succ_lt_succ_iff, Nat.succ_lt_succ_iff]
        exact (indexOf_filter_lt_iff _ _ t1 t2 hm1 hm2).trans (ih t1 t2 h1' h2')

theorem createTfVector_length (tokens : List String) (vocab : List (String × ℕ)) :
    (createTfVector tokens vocab).length = vocab.length := by
  unfold createTfVector
  suffices hgen : ∀ (ts : List String) (v : List ℕ),
      (ts.foldl
        (fun vec token =>
          match vocabGet vocab token with
          | some i => vec.set i (vec.getD i 0 + 1)
          | none => vec) v).length = v.length by
    rw [hgen tokens _, List.length_replicate]
  intro ts
  induction ts with
  | nil => intro v; rfl
  | cons u ts ih =>
    intro v
    simp only [List.foldl_cons]
    cases vocabGet vocab u with
    | some j => rw [ih, List.length_set]
    | none => exact ih v

theorem foldl_tf_entry (vocab : List (String × ℕ)) (t : String) (i : ℕ)
    (hti : vocabGet vocab t = some i)
    (hinj : ∀ u j, vocabGet vocab u = some j → j = i → u = t) :
    ∀ (tokens : List String) (v : List ℕ), i < v.length →
      ((tokens.foldl
        (fun vec token =>
          match vocabGet vocab token with
          | some j => vec.set j (vec.getD j 0 + 1)
          | none => vec) v).getD i 0) = v.getD i 0 + tokens.count t := by
  intro tokens
  induction tokens with
  | nil => intro v _; simp
  | cons u ts ih =>
    intro v hv
    simp only [List.foldl_cons]
    by_cases hu : u = t
    · subst hu
      rw [hti]
      have hset : (v.set i (v.getD i 0 + 1)).getD i 0 = v.getD i 0 + 1 := by
        rw [List.getD_eq_getElem?_getD, List.getElem?_set, if_pos rfl, if_pos hv]
        rfl
      have hlen : i < (v.set i (v.getD i 0 + 1)).length := by
        rw [List.length_set]; exact hv
      rw [ih _ hlen, hset, List.count_cons_self]
      omega
    · cases hget : vocabGet vocab u with
      | none =>
        rw [ih v hv, List.count_cons_of_ne (fun h => hu (by simpa using h.symm)) ts]
      | some j =>
        have hji : j ≠ i := fun h => hu (hinj u j hget h)
        have hset : (v.set j (v.getD j 0 + 1)).getD i 0 = v.getD i 0 := by
          rw [List.getD_eq_getElem?_getD, List.getElem?_set, if_neg hji,
            ← List.getD_eq_getElem?_getD]
        have hlen : i < (v.set j (v.getD j 0 + 1)).length := by
          rw [List.length_set]; exact hv
        rw [ih _ hlen, hset, List.count_cons_of_ne (fun h => hu (by simpa using h.symm)) ts]

theorem createTfVector_entry_indexFrom (d : List String) (tokens : List String)
    (t : String) (i : ℕ) (hget : vocabGet (indexFrom 0 d) t = some i) :
    (createTfVector tokens (indexFrom 0 d)).getD i 0 = tokens.count t := by
  have hchar := vocabGet_indexFrom t d 0
  by_cases ht : t ∈ d
  · rw [hchar, if_pos ht] at hget
    have hi : i = d.indexOf t := by
      have := Option.some.injEq .. ▸ hget
      omega
    have hidx : d.indexOf t < d.length := List.indexOf_lt_length.mpr ht
    have hinj : ∀ u j, vocabGet (indexFrom 0 d) u = some j → j = i → u = t := by
      intro u j hu hj
      have hcharu := vocabGet_indexFrom u d 0
      by_cases hud : u ∈ d
      · rw [hcharu, if_pos hud] at hu
        have hju : j = d.indexOf u := by
          have := Option.some.injEq .. ▸ hu
          omega
        have hlt : d.indexOf u < d.length := List.indexOf_lt_length.mpr hud
        have h1 : d[d.indexOf u] = u := List.getElem_indexOf hlt
        have h2 : d[d.indexOf t] = t := List.getElem_indexOf hidx
        have heq : d.indexOf u = d.indexOf t := by omega
        simp only [heq] at h1
        exact h1.symm.trans h2
      · rw [hcharu, if_neg hud] at hu
        cases hu
    have hlen : i < (List.replicate (indexFrom 0 d).length 0).length := by
      rw [List.length_replicate, length_indexFrom, hi]
      exact hidx
    unfold createTfVector
    rw [foldl_tf_entry (indexFrom 0 d) t i (by rw [hchar, if_pos ht, hi]; simp) hinj
      tokens _ hlen]
    rw [List.getD_eq_getElem?_getD, List.getElem?_replicate,
      if_pos (by rw [List.length_replicate] at hlen; exact hlen)]
    simp
  · rw [hchar, if_neg ht] at hget
    cases hget

/-- C6: the vocabulary built by `precomputeVectors` is exactly the
distinct tokens of the whole collection (chunks in collection order,
tokens in occurrence order, first occurrence kept) paired with the
indices `0, 1, 2, …` in that first-seen order; its size is the number
of distinct tokens; index order coincides with first-occurrence order
in the token stream; and each chunk's vector has the vocabulary's
length with the entry at a token's index equal to that token's
occurrence count in the chunk (hence `0` for absent tokens). -/
theorem vocabulary_and_vectors_spec (chunks : List VectorChunk) :
    (precomputeVectors chunks).2 = indexFrom 0 (specDistinct (flatTokensOf chunks))
    ∧ (∀ t, ((vocabGet (precomputeVectors chunks).2 t).isSome = true) ↔
        t ∈ flatTokensOf chunks)
    ∧ (precomputeVectors chunks).2.length = (flatTokensOf chunks).toFinset.card
    ∧ (∀ t1 t2 i1 i2, vocabGet (precomputeVectors chunks).2 t1 = some i1 →
        vocabGet (precomputeVectors chunks).2 t2 = some i2 →
        (i1 < i2 ↔ (flatTokensOf chunks).indexOf t1 <
          (flatTokensOf chunks).indexOf t2))
    ∧ (precomputeVectors chunks).1.length = chunks.length
    ∧ (∀ k, k < chunks.length →
        ((precomputeVectors chunks).1.getD k []).length =
          (precomputeVectors chunks).2.length
        ∧ (∀ t i, vocabGet (precomputeVectors chunks).2 t = some i →
            ((precomputeVectors chunks).1.getD k []).getD i 0 =
              ((tokenizedDocsOf chunks).getD k []).count t)) := by
  have hv2 : (precomputeVectors chunks).2 =
      indexFrom 0 (specDistinct (flatTokensOf chunks)) :=
    createVocabulary_spec (tokenizedDocsOf chunks)
  have hv1 : (precomputeVectors chunks).1 =
      (tokenizedDocsOf chunks).map
        (fun tokens => createTfVector tokens (precomputeVectors chunks).2) := rfl
  refine ⟨hv2, ?_, ?_, ?_, ?_, ?_⟩
  · intro t
    rw [hv2, vocabGet_indexFrom]
    by_cases ht : t ∈ specDistinct (flatTokensOf chunks)
    · rw [if_pos ht]
      simpa using (mem_specDistinct _ t).mp ht
    · rw [if_neg ht]
      simp only [Option.isSome_none]
      constructor
      · intro h
        cases h
      · intro hmem
        exact absurd ((mem_specDistinct _ t).mpr hmem) ht
  · rw [hv2, length_indexFrom, length_specDistinct_eq_card]
  · intro t1 t2 i1 i2 h1 h2
    rw [hv2, vocabGet_indexFrom] at h1 h2
    by_cases ht1 : t1 ∈ specDistinct (flatTokensOf chunks)
    · by_cases ht2 : t2 ∈ specDistinct (flatTokensOf chunks)
      · rw [if_pos ht1] at h1
        rw [if_pos ht2] at h2
        have hi1 : i1 = (specDistinct (flatTokensOf chunks)).indexOf t1 := by
          have := Option.some.injEq .. ▸ h1
          omega
        have hi2 : i2 = (specDistinct (flatTokensOf chunks)).indexOf t2 := by
          have := Option.some.injEq .. ▸ h2
          omega
        rw [hi1, hi2]
        exact indexOf_specDistinct_lt_iff (flatTokensOf chunks) t1 t2
          ((mem_specDistinct _ t1).mp ht1) ((mem_specDistinct _ t2).mp ht2)
      · rw [if_neg ht2] at h2; cases h2
    · rw [if_neg ht1] at h1; cases h1
  · rw [hv1, List.length_map]
    unfold tokenizedDocsOf
    rw [List.length_map]
  · intro k hk
    have hk2 : k < (tokenizedDocsOf chunks).length := by
      unfold tokenizedDocsOf
      rw [List.length_map]
      exact hk
    have hgetk : (precomputeVectors chunks).1.getD k [] =
        createTfVector ((tokenizedDocsOf chunks).getD k []) (precomputeVectors chunks).2 := by
      rw [hv1, List.getD_eq_getElem?_getD, List.getElem?_map,
        List.getElem?_eq_getElem hk2]
      rw [List.getD_eq_getElem?_getD, List.getElem?_eq_getElem hk2]
      rfl
    constructor
    · rw [hgetk, createTfVector_length]
    · intro t i hget
      rw [hgetk, hv2]
      rw [hv2] at hget
      exact createTfVector_entry_indexFrom _ _ t i hget

/-- C6 (witness): the vector characterisation applied to the example
collection — the chunk-0 vector has the vocabulary's length, and its
entry at the index of token `"red"` is that token's count in chunk 0. -/
theorem vocabulary_and_vectors_spec_witness :
    ((precomputeVectors [exChunkA, exChunkB]).1.getD 0 []).length =
      (precomputeVectors [exChunkA, exChunkB]).2.length
    ∧ ((precomputeVectors [exChunkA, exChunkB]).1.getD 0 []).getD 0 0 =
      ((tokenizedDocsOf [exChunkA, exChunkB]).getD 0 []).count "red" :=
  ⟨((vocabulary_and_vectors_spec [exChunkA, exChunkB]).2.2.2.2.2 0 (by decide)).1,
   ((vocabulary_and_vectors_spec [exChunkA, exChunkB]).2.2.2.2.2 0 (by decide)).2
     "red" 0 (by decide)⟩
